import Mathlib

/-!
Verification of the trashdoctor core against its specification.

The Rust sources (src/scanner.rs, src/rules.rs, src/actions.rs) are
shallowly embedded below.  Machine integers (`u64`) are modelled as `Nat`:
the code uses plain checked arithmetic (which panics on overflow in debug
builds rather than wrapping), so in-range behaviour is exact Nat
arithmetic.  Strings are modelled through `List Char`; Rust's
`str::to_lowercase` is modelled as character-wise `Char.toLower`, and byte
positions coincide with character positions on the ASCII paths and
patterns the program manipulates.  Effectful inputs (the captured clock
`now`, the filesystem, the `HOME` variable, the incoming `io::Error`) are
explicit parameters.
-/

namespace TrashDoctor

/-- Model of `FileInfo` from src/scanner.rs (lines 8-20). -/
structure FileInfo where
  path : String
  size : Nat
  last_accessed : String
  last_access_secs : Nat
  last_modified : String
  last_modified_secs : Nat
  file_type : String
  is_hidden : Bool
  is_readonly : Bool
  is_executable : Bool
deriving DecidableEq, Repr

/-- Model of `RuleConfig` from src/rules.rs (lines 4-16). -/
structure RuleConfig where
  max_age_days : Nat
  min_size_mb : Nat
  max_size_mb : Option Nat
  file_types : Option (List String)
  exclude_file_types : Option (List String)
  include_hidden : Bool
  include_readonly : Bool
  include_executable : Bool
  custom_patterns : List String
  exclude_patterns : List String
deriving DecidableEq, Repr

/-- Character-wise lowercasing, modelling `str::to_lowercase`. -/
def lowerL (s : List Char) : List Char := s.map Char.toLower

/-- Remainder of `hay` after the first occurrence of `needle`, modelling
`str::find` followed by advancing the cursor past the match
(src/rules.rs lines 176-180). -/
def restAfter (needle : List Char) : List Char → Option (List Char)
  | [] => if needle.isPrefixOf ([] : List Char) then some [] else none
  | c :: t =>
    if needle.isPrefixOf (c :: t) then some ((c :: t).drop needle.length)
    else restAfter needle t

/-- Substring containment, modelling `str::contains`: `needle` occurs
somewhere in `hay`. -/
def strContains (hay needle : List Char) : Bool :=
  (restAfter needle hay).isSome

/-- Concrete sample data: a record last accessed at epoch second 100
(the staler of the pair). -/
def recStale : FileInfo :=
  { path := "/home/u/stale.txt"
    size := 10
    last_accessed := ""
    last_access_secs := 100
    last_modified := ""
    last_modified_secs := 0
    file_type := "Text"
    is_hidden := false
    is_readonly := false
    is_executable := false }

/-- Concrete sample data: a record last accessed at epoch second 200
(the fresher of the pair). -/
def recFresh : FileInfo :=
  { path := "/home/u/fresh.txt"
    size := 10
    last_accessed := ""
    last_access_secs := 200
    last_modified := ""
    last_modified_secs := 0
    file_type := "Text"
    is_hidden := false
    is_readonly := false
    is_executable := false }

namespace Rules

/-- The part-consuming loop of `wildcard_match` in src/rules.rs
(lines 158-184).  `isFirst` records whether the current part has index 0;
the remainder `rest` stands for `text_lower[text_pos..]`.  Empty parts are
skipped, the first non-empty part must be a prefix, a non-empty part in
last position must be a suffix of the remainder, and middle parts are
consumed at their first occurrence. -/
def wmGo : List (List Char) → Bool → List Char → Bool
  | [], _, _ => true
  | p :: ps, isFirst, rest =>
    if p = [] then wmGo ps false rest
    else
      let pl := lowerL p
      if isFirst then
        if pl.isPrefixOf rest then wmGo ps false (rest.drop pl.length) else false
      else if ps = [] then
        pl.isSuffixOf rest
      else
        match restAfter pl rest with
        | some r => wmGo ps false r
        | none => false

/-- Model of `wildcard_match` from src/rules.rs (lines 144-185),
the case-insensitive rule-engine variant. -/
def wildcard_match (pattern text : String) : Bool :=
  if pattern = "*" then true
  else if ¬ pattern.toList.contains '*' then pattern = text
  else
    let parts := pattern.toList.splitOn '*'
    if parts.isEmpty then true
    else wmGo parts true (lowerL text.toList)

/-- Model of `pattern_matches` from src/rules.rs (lines 135-142). -/
def pattern_matches (path pattern : String) : Bool :=
  if pattern.toList.contains '*' then wildcard_match pattern path
  else strContains (lowerL path.toList) (lowerL pattern.toList)

/-- Model of `matches_rule` from src/rules.rs (lines 58-133).  `Nat`
subtraction is Rust's `saturating_sub`. -/
def matches_rule (file : FileInfo) (rule : RuleConfig)
    (max_age_secs min_size_bytes : Nat) (max_size_bytes : Option Nat)
    (now_secs : Nat) : Bool :=
  let file_age_secs := now_secs - file.last_access_secs
  if file_age_secs < max_age_secs then false
  else if file.size < min_size_bytes then false
  else if (match max_size_bytes with
           | some max_size => decide (max_size < file.size)
           | none => false) then false
  else if file.is_hidden && !rule.include_hidden then false
  else if file.is_readonly && !rule.include_readonly then false
  else if file.is_executable && !rule.include_executable then false
  else if (match rule.file_types with
           | some include_types =>
             !include_types.any (fun t =>
               strContains (lowerL file.file_type.toList) (lowerL t.toList))
           | none => false) then false
  else if (match rule.exclude_file_types with
           | some exclude_types =>
             exclude_types.any (fun t =>
               strContains (lowerL file.file_type.toList) (lowerL t.toList))
           | none => false) then false
  else if !rule.custom_patterns.isEmpty &&
          !rule.custom_patterns.any (fun pattern =>
            pattern_matches file.path pattern) then false
  else if !rule.exclude_patterns.isEmpty &&
          rule.exclude_patterns.any (fun pattern =>
            pattern_matches file.path pattern) then false
  else true

/-- Model of `apply_rules` from src/rules.rs (lines 37-56).  The impure
clock read is the explicit parameter `now_secs`; the `Vec::push` loop is a
left fold onto the accumulated result. -/
def apply_rules (files : List FileInfo) (rule : RuleConfig)
    (now_secs : Nat) : List FileInfo :=
  let max_age_secs := rule.max_age_days * 86400
  let min_size_bytes := rule.min_size_mb * 1024 * 1024
  let max_size_bytes := rule.max_size_mb.map (fun mb => mb * 1024 * 1024)
  files.foldl
    (fun result file =>
      if matches_rule file rule max_age_secs min_size_bytes max_size_bytes
          now_secs then
        result ++ [file]
      else result)
    []

/-- Spec-side record predicate for claim C1, written from the claim's
words: strict conjunction of the age predicate (now minus last access at
least `max_age_days * 86400` seconds, with `max_age_days = 0` passing
every record), size bounds, flag allowances, type inclusion/exclusion
lists (case-insensitive substring against the type label) and
inclusion/exclusion pattern lists. -/
def c1Matches (rule : RuleConfig) (now_secs : Nat) (f : FileInfo) : Prop :=
  (rule.max_age_days = 0 ∨
    (f.last_access_secs ≤ now_secs ∧
      rule.max_age_days * 86400 ≤ now_secs - f.last_access_secs)) ∧
  rule.min_size_mb * 1024 * 1024 ≤ f.size ∧
  (∀ mb ∈ rule.max_size_mb, f.size ≤ mb * 1024 * 1024) ∧
  (f.is_hidden = false ∨ rule.include_hidden = true) ∧
  (f.is_readonly = false ∨ rule.include_readonly = true) ∧
  (f.is_executable = false ∨ rule.include_executable = true) ∧
  (∀ ts ∈ rule.file_types, ∃ t ∈ ts,
    strContains (lowerL f.file_type.toList) (lowerL t.toList) = true) ∧
  (∀ ts ∈ rule.exclude_file_types, ∀ t ∈ ts,
    strContains (lowerL f.file_type.toList) (lowerL t.toList) = false) ∧
  (rule.custom_patterns ≠ [] →
    ∃ p ∈ rule.custom_patterns, pattern_matches f.path p = true) ∧
  (∀ p ∈ rule.exclude_patterns, pattern_matches f.path p = false)

instance (rule : RuleConfig) (now_secs : Nat) (f : FileInfo) :
    Decidable (c1Matches rule now_secs f) := by
  unfold c1Matches; infer_instance

/-- The age guard of `matches_rule` (src/rules.rs lines 66-70),
factored out: the record passes when its saturated age is not below the
threshold. -/
def age_check (f : FileInfo) (rule : RuleConfig) (now_secs : Nat) : Bool :=
  !(decide (now_secs - f.last_access_secs < rule.max_age_days * 86400))

/-- Concrete sample data for witnesses: a large, old archive file. -/
def recOld : FileInfo :=
  { path := "/home/u/Downloads/big.zip"
    size := 20971520
    last_accessed := ""
    last_access_secs := 0
    last_modified := ""
    last_modified_secs := 0
    file_type := "Archive"
    is_hidden := false
    is_readonly := false
    is_executable := false }

/-- Concrete sample data: a record whose last access lies in the
future. -/
def recFuture : FileInfo :=
  { path := "/home/u/f.txt"
    size := 20971520
    last_accessed := ""
    last_access_secs := 2000
    last_modified := ""
    last_modified_secs := 0
    file_type := "Text"
    is_hidden := false
    is_readonly := false
    is_executable := false }

/-- Concrete sample configuration with every axis permissive. -/
def cfgLoose : RuleConfig :=
  { max_age_days := 0
    min_size_mb := 1
    max_size_mb := none
    file_types := none
    exclude_file_types := none
    include_hidden := false
    include_readonly := false
    include_executable := false
    custom_patterns := []
    exclude_patterns := [] }

/-- Concrete sample configuration demanding thirty days of staleness. -/
def cfgAged : RuleConfig :=
  { cfgLoose with max_age_days := 30 }

/-- Declarative wildcard tail semantics (middle parts followed by the
final part): each middle part occurs left-to-right, consuming its match,
and the final part is a suffix of the remaining segment.  Empty parts
are vacuous. -/
def declTail : List (List Char) → List Char → Prop
  | [], _ => True
  | [l], r => l <:+ r
  | m :: ps, r => ∃ a b, r = a ++ m ++ b ∧ declTail ps b

/-- Declarative wildcard pattern semantics over the `*`-split parts of a
pattern: the first part is a prefix, then `declTail` for the rest. -/
def declPat : List (List Char) → List Char → Prop
  | [], _ => True
  | [f], t => f <+: t
  | f :: ps, t => ∃ r, t = f ++ r ∧ declTail ps r

/-- The middle-parts-only predicate of claim C3 as stated: every middle
part occurs in left-to-right order after the previous match. -/
def midsTail : List (List Char) → List Char → Prop
  | [], _ => True
  | m :: ms, r => ∃ a b, r = a ++ m ++ b ∧ midsTail ms b

/-- Claim C3's wildcard predicate exactly as stated: first part a prefix
of the path, last part a suffix of the (whole) path, middle parts in
left-to-right order after the prefix. -/
def claimPat : List (List Char) → List Char → Prop
  | [], _ => True
  | [f], t => f <+: t
  | f :: ps, t =>
    f <+: t ∧ (ps.getLast?.getD []) <:+ t ∧
      midsTail ps.dropLast (t.drop f.length)

end Rules

namespace Scanner

/-- The part-consuming loop of the scanner's `wildcard_match`
(src/scanner.rs lines 239-263): identical to the rule engine's loop but
entirely case-sensitive. -/
def wmGo : List (List Char) → Bool → List Char → Bool
  | [], _, _ => true
  | p :: ps, isFirst, rest =>
    if p = [] then wmGo ps false rest
    else if isFirst then
      if p.isPrefixOf rest then wmGo ps false (rest.drop p.length) else false
    else if ps = [] then
      p.isSuffixOf rest
    else
      match restAfter p rest with
      | some r => wmGo ps false r
      | none => false

/-- Model of `wildcard_match` from src/scanner.rs (lines 224-266), the
case-sensitive scan-time variant. -/
def wildcard_match (pattern text : String) : Bool :=
  if pattern = "*" then true
  else if ¬ pattern.toList.contains '*' then pattern = text
  else
    let parts := pattern.toList.splitOn '*'
    if parts.isEmpty then true
    else wmGo parts true text.toList

/-- Model of `should_exclude_file` from src/scanner.rs (lines 207-222):
iterate the configured exclude patterns, returning `true` at the first
wildcard match (for patterns containing `*`) or case-sensitive substring
containment (for patterns without `*`). -/
def should_exclude_file (path : String) : List String → Bool
  | [] => false
  | p :: ps =>
    if p.toList.contains '*' then
      if wildcard_match p path then true else should_exclude_file path ps
    else if strContains path.toList p.toList then true
    else should_exclude_file path ps

/-- Model of `get_oldest_files` from src/scanner.rs (lines 141-145):
stable-sort by the comparator `b.last_access_secs.cmp(&a.last_access_secs)`
(descending timestamps) and take the first `count` entries.  Rust's
`sort_by` and `List.mergeSort` are both stable, so they agree on every
input. -/
def get_oldest_files (files : List FileInfo) (count : Nat) :
    List FileInfo :=
  (files.mergeSort
    (fun a b => decide (b.last_access_secs ≤ a.last_access_secs))).take
    count

end Scanner

namespace Actions

/-- Model of `FileActionError` from src/actions.rs (lines 7-14). -/
inductive FileActionError where
  | PermissionDenied
  | FileNotFound
  | InsufficientSpace
  | FileInUse
  | Other (msg : String)
deriving DecidableEq, Repr

/-- The `io::ErrorKind` values distinguished by the `From` impl, plus a
sample of the many other kinds falling into its final catch-all arm. -/
inductive IOErrorKind where
  | permissionDenied
  | notFound
  | other
  | interrupted
  | alreadyExists
  | wouldBlock
deriving DecidableEq, Repr

/-- An incoming `io::Error`, reduced to the three observations the
`From` impl makes of it: its kind, its raw OS error code, and its
rendered message (`error.to_string()`). -/
structure IoError where
  kind : IOErrorKind
  raw_os_error : Option Int
  msg : String
deriving DecidableEq, Repr

/-- Model of `impl From<io::Error> for FileActionError` from
src/actions.rs (lines 16-35): permission and not-found kinds map
directly; kind `Other` is refined by raw OS code 28 (ENOSPC) and 16
(EBUSY); everything else collapses to `Other` carrying the original
message. -/
def from_io_error (e : IoError) : FileActionError :=
  match e.kind with
  | IOErrorKind.permissionDenied => FileActionError.PermissionDenied
  | IOErrorKind.notFound => FileActionError.FileNotFound
  | IOErrorKind.other =>
    match e.raw_os_error with
    | some c =>
      if c = 28 then FileActionError.InsufficientSpace
      else if c = 16 then FileActionError.FileInUse
      else FileActionError.Other e.msg
    | none => FileActionError.Other e.msg
  | _ => FileActionError.Other e.msg

/-- A filesystem snapshot: the existing regular files, each with its
read-only permission bit.  Paths are unique in any well-formed snapshot;
removal drops every entry at the path so the model needs no side
condition. -/
abbrev FS := List (String × Bool)

deriving instance DecidableEq for Except

/-- Path existence, modelling `Path::exists`. -/
def pathExists (fs : FS) (p : String) : Bool :=
  fs.any (fun e => decide (e.1 = p))

/-- Removal of a path, modelling `fs::remove_file`'s effect. -/
def removeAll (fs : FS) (p : String) : FS :=
  fs.filter (fun e => !(decide (e.1 = p)))

/-- Model of `delete_file` from src/actions.rs (lines 49-64): existence
check first, then the metadata read (whose read-only bit is the lookup),
then the permission guard, then removal.  In this sequential model the
metadata read after a successful existence check cannot fail;
a `None` lookup mirrors the `?`-propagated NotFound. -/
def delete_file (fs : FS) (path : String) :
    Except FileActionError Unit × FS :=
  if ¬ pathExists fs path = true then
    (Except.error FileActionError.FileNotFound, fs)
  else
    match fs.lookup path with
    | none => (Except.error FileActionError.FileNotFound, fs)
    | some ro =>
      if ro then (Except.error FileActionError.PermissionDenied, fs)
      else (Except.ok (), removeAll fs path)

/-- Model of `Path::file_name` for the strings the archive path
manipulation feeds it: the last path component, `None` when the path has
no final component or ends in a parent reference. -/
def fileName (p : String) : Option String :=
  let comps := (p.toList.splitOn '/').filter
    (fun s => !(decide (s = [])) && !(decide (s = ['.'])))
  match comps.getLast? with
  | none => none
  | some l => if l = ['.', '.'] then none else some (String.mk l)

/-- Split a character list at its last `.`: `some (before, after)`, or
`none` when no dot occurs. -/
def lastDotSplit : List Char → Option (List Char × List Char)
  | [] => none
  | c :: t =>
    match lastDotSplit t with
    | some (b, a) => some (c :: b, a)
    | none => if c = '.' then some ([], t) else none

/-- Model of `Path::file_stem` and `Path::extension` on a plain file
name: the portion before/after the final dot, with a file name whose
only dot is leading (e.g. `.hidden`) counting as all stem and no
extension. -/
def splitExt (f : List Char) : List Char × Option (List Char) :=
  match lastDotSplit f with
  | none => (f, none)
  | some ([], _) => (f, none)
  | some (b, a) => (b, some a)

/-- The candidate archive destination for collision counter `n`
(src/actions.rs lines 86-97): `dir/filename` for `n = 0`, and the stem
suffixed with `_<n>` before the extension (or appended when the
extension is empty) for `n ≥ 1`. -/
def archiveCandidate (dir filename : String) (n : Nat) : String :=
  if n = 0 then dir ++ "/" ++ filename
  else
    let se := splitExt filename.toList
    let stem := String.mk se.1
    let ext := (se.2.map String.mk).getD ""
    if ext = "" then dir ++ "/" ++ stem ++ "_" ++ toString n
    else dir ++ "/" ++ stem ++ "_" ++ toString n ++ "." ++ ext

/-- The collision loop of `archive_file` (src/actions.rs lines 90-99):
while the current candidate exists, build the candidate for the current
counter and increment.  The loop always terminates on a finite
filesystem; the explicit fuel only bounds the recursion and is sized so
that it is never exhausted on the inputs the theorems quantify over. -/
def findFreeGo (fs : FS) (dir filename : String) :
    Nat → Nat → String → String
  | _, 0, cur => cur
  | counter, fuel + 1, cur =>
    if pathExists fs cur then
      findFreeGo fs dir filename (counter + 1) fuel
        (archiveCandidate dir filename counter)
    else cur

/-- The full collision-avoiding destination search, starting at
`dir/filename` with the counter at 1. -/
def findFreePath (fs : FS) (dir filename : String) : String :=
  findFreeGo fs dir filename 1 (fs.length + 1)
    (archiveCandidate dir filename 0)

/-- Model of `fs::copy src dst`: requires the source to exist and
creates (or overwrites) the destination, copying the permission bits. -/
def copyFile (fs : FS) (src dst : String) : Except FileActionError FS :=
  match fs.lookup src with
  | none => Except.error FileActionError.FileNotFound
  | some ro => Except.ok ((dst, ro) :: removeAll fs dst)

/-- Model of `archive_file` from src/actions.rs (lines 66-108):
existence check, archive directory under `home` (directory creation is a
no-op in this file-level model), collision-safe destination search, copy
to the destination, then deletion of the original via `delete_file`.
Errors propagate with the filesystem as it stands at that point, so a
failing delete leaves the fresh copy in place. -/
def archive_file (fs : FS) (home path : String) :
    Except FileActionError Unit × FS :=
  if ¬ pathExists fs path = true then
    (Except.error FileActionError.FileNotFound, fs)
  else
    let archive_dir := home ++ "/.trashdoctor/archive"
    match fileName path with
    | none => (Except.error (FileActionError.Other "Invalid file path"), fs)
    | some filename =>
      let archive_path := findFreePath fs archive_dir filename
      match copyFile fs path archive_path with
      | Except.error e => (Except.error e, fs)
      | Except.ok fs1 => delete_file fs1 path

/-- Concrete archive scenario: the archive directory already holds
`report.pdf`, and two distinct sources named `report.pdf` wait to be
archived. -/
def arcFS : FS :=
  [("h/.trashdoctor/archive/report.pdf", false),
   ("s1/report.pdf", false),
   ("s2/report.pdf", false)]

/-- Concrete archive scenario: a read-only original. -/
def arcRO : FS := [("s/report.pdf", true)]

/-- Rounding of the exact ratio `a / d` to the nearest integer with ties
to even, the rounding Rust's `{:.2}` formatting applies to the exact
value being printed. -/
def roundHalfEven (a d : Nat) : Nat :=
  let q := a / d
  let r := a % d
  if 2 * r < d then q
  else if d < 2 * r then q + 1
  else if q % 2 = 0 then q else q + 1

/-- Two-decimal rendering of the exact ratio `a / d`, modelling
`format!("{:.2}", _)` on the exact quotient. -/
def twoDec (a d : Nat) : String :=
  let h := roundHalfEven (a * 100) d
  toString (h / 100) ++ "." ++
    String.mk [Nat.digitChar (h % 100 / 10), Nat.digitChar (h % 100 % 10)]

/-- The unit table of `format_file_size`. -/
def UNITS : List String := ["B", "KB", "MB", "GB", "TB"]

/-- The division loop of `format_file_size` (src/actions.rs lines
193-196) on the exact value `num / den`: divide by 1024 while the value
is at least 1024 and a larger unit remains.  All `f64` operations the
loop performs are exact for every tier boundary below 2^53, and above
2^53 the value is far beyond the last boundary, so the exact loop agrees
with the floating-point one for every `u64` input.  The fuel `4 - idx`
mirrors the bound `unit_idx < UNITS.len() - 1` and is never exhausted
while the guard holds. -/
def formatLoop (num : Nat) : Nat → Nat → Nat → Nat × Nat × Nat
  | den, idx, 0 => (num, den, idx)
  | den, idx, fuel + 1 =>
    if 1024 * den ≤ num ∧ idx < 4 then
      formatLoop num (den * 1024) (idx + 1) fuel
    else (num, den, idx)

/-- Model of `format_file_size` from src/actions.rs (lines 188-203). -/
def format_file_size (size : Nat) : String :=
  let t := formatLoop size 1 0 4
  if t.2.2 = 0 then toString size ++ " B"
  else twoDec t.1 t.2.1 ++ " " ++ UNITS.getD t.2.2 ""

/-- Spec-side formatter for claim C9, written from the claim's words:
binary 1024-based unit tiers selected by explicit range tests, no
decimals in the `B` tier, two decimals in every higher tier. -/
def formatSpec (n : Nat) : String :=
  if n < 1024 then toString n ++ " B"
  else if n < 1024 * 1024 then twoDec n 1024 ++ " KB"
  else if n < 1024 * 1024 * 1024 then twoDec n (1024 * 1024) ++ " MB"
  else if n < 1024 * 1024 * 1024 * 1024 then
    twoDec n (1024 * 1024 * 1024) ++ " GB"
  else twoDec n (1024 * 1024 * 1024 * 1024) ++ " TB"

end Actions

namespace Rules

/-- The push loop of `apply_rules` is a filter appended to the
accumulator. -/
theorem foldl_push_eq_filter {α : Type} (p : α → Bool) :
    ∀ (l acc : List α),
      l.foldl (fun r x => if p x then r ++ [x] else r) acc =
        acc ++ l.filter p := by
  intro l
  induction l with
  | nil => intro acc; simp
  | cons x xs ih =>
    intro acc
    by_cases h : p x = true
    · simp [List.foldl_cons, h, ih, List.filter_cons]
    · simp only [Bool.not_eq_true] at h
      simp [List.foldl_cons, h, ih, List.filter_cons]

/-- The function `apply_rules` is the filter of `matches_rule` at the precomputed
thresholds. -/
theorem apply_rules_eq_filter (files : List FileInfo) (rule : RuleConfig)
    (now_secs : Nat) :
    apply_rules files rule now_secs =
      files.filter (fun f =>
        matches_rule f rule (rule.max_age_days * 86400)
          (rule.min_size_mb * 1024 * 1024)
          (rule.max_size_mb.map (fun mb => mb * 1024 * 1024)) now_secs) := by
  unfold apply_rules
  rw [foldl_push_eq_filter]
  simp

/-- An early-return guard `if c then false else x` is the conjunction of
the guard's negation with the continuation. -/
theorem if_guard (c : Prop) [Decidable c] (x : Bool) :
    (if c then false else x) = (!(decide c) && x) := by
  split_ifs with h <;> simp [h]

/-- The guard chain of `matches_rule` is the strict conjunction of the negations of its ten
early-return guards. -/
theorem matches_rule_eq_true_iff (f : FileInfo) (rule : RuleConfig)
    (max_age_secs min_size_bytes : Nat) (max_size_bytes : Option Nat)
    (now_secs : Nat) :
    matches_rule f rule max_age_secs min_size_bytes max_size_bytes
        now_secs = true ↔
      (¬ now_secs - f.last_access_secs < max_age_secs) ∧
      (¬ f.size < min_size_bytes) ∧
      (∀ m ∈ max_size_bytes, f.size ≤ m) ∧
      (f.is_hidden = false ∨ rule.include_hidden = true) ∧
      (f.is_readonly = false ∨ rule.include_readonly = true) ∧
      (f.is_executable = false ∨ rule.include_executable = true) ∧
      (∀ ts ∈ rule.file_types, ∃ t ∈ ts,
        strContains (lowerL f.file_type.toList) (lowerL t.toList) = true) ∧
      (∀ ts ∈ rule.exclude_file_types, ∀ t ∈ ts,
        strContains (lowerL f.file_type.toList) (lowerL t.toList) = false) ∧
      (rule.custom_patterns ≠ [] →
        ∃ p ∈ rule.custom_patterns, pattern_matches f.path p = true) ∧
      (∀ p ∈ rule.exclude_patterns, pattern_matches f.path p = false) := by
  unfold matches_rule
  simp only [if_guard, Bool.and_eq_true, Bool.not_eq_true',
    decide_eq_false_iff_not]
  refine and_congr Iff.rfl (and_congr Iff.rfl ?_)
  refine and_congr ?_ ?_
  · rcases max_size_bytes with _ | m <;> simp [not_lt]
  refine and_congr ?_ ?_
  · cases h1 : f.is_hidden <;> cases h2 : rule.include_hidden <;> simp
  refine and_congr ?_ ?_
  · cases h1 : f.is_readonly <;> cases h2 : rule.include_readonly <;> simp
  refine and_congr ?_ ?_
  · cases h1 : f.is_executable <;>
      cases h2 : rule.include_executable <;> simp
  refine and_congr ?_ ?_
  · rcases h : rule.file_types with _ | ts <;> simp [h, List.any_eq_true]
  refine and_congr ?_ ?_
  · rcases h : rule.exclude_file_types with _ | ts <;>
      simp [h, List.any_eq_true, Bool.not_eq_true]
  refine and_congr ?_ ?_
  · rcases h : rule.custom_patterns with _ | ⟨a, as⟩ <;>
      simp [h, List.any_eq_true]
    cases hpa : pattern_matches f.path a <;> simp [hpa]
  · rcases h : rule.exclude_patterns with _ | ⟨a, as⟩ <;>
      simp [h, List.any_eq_true, not_exists, Bool.not_eq_true]

/-- The predicate `matches_rule` at the thresholds computed by `apply_rules` decides
exactly the spec-side conjunction of claim C1. -/
theorem matches_rule_iff_c1Matches (f : FileInfo) (rule : RuleConfig)
    (now_secs : Nat) :
    matches_rule f rule (rule.max_age_days * 86400)
        (rule.min_size_mb * 1024 * 1024)
        (rule.max_size_mb.map (fun mb => mb * 1024 * 1024)) now_secs = true ↔
      c1Matches rule now_secs f := by
  rw [matches_rule_eq_true_iff]
  unfold c1Matches
  refine and_congr (by omega) (and_congr (by omega) (and_congr ?_ Iff.rfl))
  rcases h : rule.max_size_mb with _ | mb <;> simp [h, not_lt]

/-- C1: for every collection of file records and every rule
configuration, `apply_rules` returns exactly those input records
satisfying the strict conjunction of all configured predicates (age with
`max_age_days = 0` passing everything, size bounds, flag allowances, type
inclusion/exclusion lists, inclusion/exclusion pattern lists), and the
output preserves the relative order of the input: it is the filter of the
input list by the spec-side predicate `c1Matches`. -/
theorem c1_apply_rules_strict_conjunction :
    ∀ (files : List FileInfo) (rule : RuleConfig) (now_secs : Nat),
      apply_rules files rule now_secs =
        files.filter (fun f => decide (c1Matches rule now_secs f)) := by
  intro files rule now_secs
  rw [apply_rules_eq_filter]
  apply List.filter_congr
  intro f _
  by_cases hc : c1Matches rule now_secs f
  · rw [(matches_rule_iff_c1Matches f rule now_secs).mpr hc,
      decide_eq_true hc]
  · rw [decide_eq_false hc, ← Bool.not_eq_true]
    intro hm
    exact hc ((matches_rule_iff_c1Matches f rule now_secs).mp hm)

/-- Membership in the filtered set is membership in the input plus
`matches_rule` at the precomputed thresholds. -/
theorem mem_apply_rules (f : FileInfo) (files : List FileInfo)
    (rule : RuleConfig) (now_secs : Nat) :
    f ∈ apply_rules files rule now_secs ↔
      f ∈ files ∧
        matches_rule f rule (rule.max_age_days * 86400)
          (rule.min_size_mb * 1024 * 1024)
          (rule.max_size_mb.map (fun mb => mb * 1024 * 1024))
          now_secs = true := by
  rw [apply_rules_eq_filter, List.mem_filter]

/-- C4: filtering is monotone in the thresholds and flags.  Raising
`min_size_mb` never adds a record to the filtered set, raising
`max_age_days` never adds a record, and flipping any of
`include_hidden`/`include_readonly`/`include_executable` to `true` never
removes a record. -/
theorem c4_monotonicity :
    ∀ (files : List FileInfo) (rule : RuleConfig) (now_secs : Nat),
      (∀ m, rule.min_size_mb ≤ m →
        ∀ f ∈ apply_rules files { rule with min_size_mb := m } now_secs,
          f ∈ apply_rules files rule now_secs) ∧
      (∀ d, rule.max_age_days ≤ d →
        ∀ f ∈ apply_rules files { rule with max_age_days := d } now_secs,
          f ∈ apply_rules files rule now_secs) ∧
      (∀ f ∈ apply_rules files rule now_secs,
        f ∈ apply_rules files { rule with include_hidden := true }
          now_secs) ∧
      (∀ f ∈ apply_rules files rule now_secs,
        f ∈ apply_rules files { rule with include_readonly := true }
          now_secs) ∧
      (∀ f ∈ apply_rules files rule now_secs,
        f ∈ apply_rules files { rule with include_executable := true }
          now_secs) := by
  intro files rule now_secs
  refine ⟨?_, ?_, ?_, ?_, ?_⟩
  · intro m hle f hf
    rw [mem_apply_rules] at hf ⊢
    refine ⟨hf.1, ?_⟩
    have hm := hf.2
    rw [matches_rule_eq_true_iff] at hm ⊢
    dsimp only at hm ⊢
    obtain ⟨h1, h2, h3, h4, h5, h6, h7, h8, h9, h10⟩ := hm
    exact ⟨h1, by omega, h3, h4, h5, h6, h7, h8, h9, h10⟩
  · intro d hle f hf
    rw [mem_apply_rules] at hf ⊢
    refine ⟨hf.1, ?_⟩
    have hm := hf.2
    rw [matches_rule_eq_true_iff] at hm ⊢
    dsimp only at hm ⊢
    obtain ⟨h1, h2, h3, h4, h5, h6, h7, h8, h9, h10⟩ := hm
    exact ⟨by omega, h2, h3, h4, h5, h6, h7, h8, h9, h10⟩
  · intro f hf
    rw [mem_apply_rules] at hf ⊢
    refine ⟨hf.1, ?_⟩
    have hm := hf.2
    rw [matches_rule_eq_true_iff] at hm ⊢
    dsimp only at hm ⊢
    obtain ⟨h1, h2, h3, h4, h5, h6, h7, h8, h9, h10⟩ := hm
    exact ⟨h1, h2, h3, Or.inr rfl, h5, h6, h7, h8, h9, h10⟩
  · intro f hf
    rw [mem_apply_rules] at hf ⊢
    refine ⟨hf.1, ?_⟩
    have hm := hf.2
    rw [matches_rule_eq_true_iff] at hm ⊢
    dsimp only at hm ⊢
    obtain ⟨h1, h2, h3, h4, h5, h6, h7, h8, h9, h10⟩ := hm
    exact ⟨h1, h2, h3, h4, Or.inr rfl, h6, h7, h8, h9, h10⟩
  · intro f hf
    rw [mem_apply_rules] at hf ⊢
    refine ⟨hf.1, ?_⟩
    have hm := hf.2
    rw [matches_rule_eq_true_iff] at hm ⊢
    dsimp only at hm ⊢
    obtain ⟨h1, h2, h3, h4, h5, h6, h7, h8, h9, h10⟩ := hm
    exact ⟨h1, h2, h3, h4, h5, Or.inr rfl, h7, h8, h9, h10⟩

/-- C10: the age computation never underflows.  For a record whose
`last_access_secs` lies in the future of the captured `now`, the
saturated age is zero, so the record passes the age check iff
`max_age_days` is zero; with a nonzero `max_age_days` it never matches
at all. -/
theorem c10_age_saturation :
    ∀ (f : FileInfo) (rule : RuleConfig) (now_secs : Nat),
      now_secs < f.last_access_secs →
      (age_check f rule now_secs = true ↔ rule.max_age_days = 0) ∧
      (rule.max_age_days ≠ 0 →
        ∀ (min_size_bytes : Nat) (max_size_bytes : Option Nat),
          matches_rule f rule (rule.max_age_days * 86400) min_size_bytes
            max_size_bytes now_secs = false) := by
  intro f rule now_secs h
  constructor
  · unfold age_check
    simp only [Bool.not_eq_true', decide_eq_false_iff_not, not_lt]
    omega
  · intro hne min_size_bytes max_size_bytes
    rw [← Bool.not_eq_true, matches_rule_eq_true_iff]
    intro hm
    have h1 := hm.1
    omega

/-- Witness for C4: a concrete record kept under the tighter minimum size
is also kept under the looser one. -/
theorem c4_monotonicity_witness :
    cfgLoose.min_size_mb ≤ 5 ∧
    recOld ∈ Rules.apply_rules [recOld]
      { cfgLoose with min_size_mb := 5 } 1000000 ∧
    recOld ∈ Rules.apply_rules [recOld] cfgLoose 1000000 :=
  ⟨by decide, by decide,
    (c4_monotonicity [recOld] cfgLoose 1000000).1 5 (by decide) recOld
      (by decide)⟩

/-- Witness for C10: a concrete future-dated record with a nonzero age
threshold is rejected. -/
theorem c10_age_saturation_witness :
    1000 < recFuture.last_access_secs ∧
    cfgAged.max_age_days ≠ 0 ∧
    Rules.matches_rule recFuture cfgAged (cfgAged.max_age_days * 86400) 0
      none 1000 = false :=
  ⟨by decide, by decide,
    (c10_age_saturation recFuture cfgAged 1000 (by decide)).2 (by decide) 0
      none⟩

/-- If `restAfter` succeeds, the haystack splits around the needle with
the returned remainder. -/
theorem restAfter_eq_some (m : List Char) :
    ∀ (h r : List Char), restAfter m h = some r → ∃ a, h = a ++ m ++ r := by
  intro h
  induction h with
  | nil =>
    intro r hr
    unfold restAfter at hr
    by_cases hm : m.isPrefixOf ([] : List Char) = true
    · have hm' : m = [] := by
        cases m with
        | nil => rfl
        | cons c t => simp [List.isPrefixOf] at hm
      subst hm'
      simp at hr
      subst hr
      exact ⟨[], rfl⟩
    · rw [if_neg (by simpa using hm)] at hr
      cases hr
  | cons c t ih =>
    intro r hr
    unfold restAfter at hr
    by_cases hm : m.isPrefixOf (c :: t) = true
    · rw [if_pos (by simpa using hm)] at hr
      obtain ⟨s, hs⟩ := List.isPrefixOf_iff_prefix.mp hm
      injection hr with hr
      refine ⟨[], ?_⟩
      rw [← hs] at hr ⊢
      rw [List.drop_left] at hr
      rw [hr]
      rfl
    · rw [if_neg (by simpa using hm)] at hr
      obtain ⟨a, ha⟩ := ih r hr
      exact ⟨c :: a, by rw [ha]; rfl⟩

/-- When the needle is a prefix, `restAfter` drops exactly it. -/
theorem restAfter_of_isPrefix (m h : List Char) (hp : m <+: h) :
    restAfter m h = some (h.drop m.length) := by
  cases h with
  | nil =>
    have hm : m = [] := List.prefix_nil.mp hp
    subst hm
    rfl
  | cons c t =>
    unfold restAfter
    rw [if_pos ( List.isPrefixOf_iff_prefix.mpr hp)]

/-- If the haystack splits around the needle, `restAfter` succeeds and
returns a remainder extending the split's tail. -/
theorem restAfter_of_split (m : List Char) :
    ∀ (a b h : List Char), h = a ++ m ++ b →
      ∃ r, restAfter m h = some r ∧ b <:+ r := by
  intro a
  induction a with
  | nil =>
    intro b h hh
    simp only [List.nil_append] at hh
    subst hh
    refine ⟨b, ?_, List.suffix_refl b⟩
    rw [restAfter_of_isPrefix m (m ++ b) ⟨b, rfl⟩, List.drop_left]
  | cons c a' ih =>
    intro b h hh
    subst hh
    simp only [List.cons_append]
    by_cases hm : m.isPrefixOf (c :: (a' ++ m ++ b)) = true
    · refine ⟨(c :: (a' ++ m ++ b)).drop m.length, ?_, ?_⟩
      · exact restAfter_of_isPrefix m _ ( List.isPrefixOf_iff_prefix.mp hm)
      · have hbs : b <:+ c :: (a' ++ m ++ b) := ⟨c :: (a' ++ m), by simp⟩
        have hds : (c :: (a' ++ m ++ b)).drop m.length <:+
            c :: (a' ++ m ++ b) := List.drop_suffix _ _
        refine List.suffix_of_suffix_length_le hbs hds ?_
        simp [List.length_drop]
        omega
    · have hstep : restAfter m (c :: (a' ++ m ++ b) : List Char) =
          restAfter m (a' ++ m ++ b) := by
        rw [restAfter]
        rw [if_neg (by simpa using hm)]
      obtain ⟨r, hr, hbr⟩ := ih b (a' ++ m ++ b) rfl
      exact ⟨r, by rw [hstep, hr], hbr⟩

/-- The predicate `declTail` only gets easier on a longer remainder. -/
theorem declTail_mono :
    ∀ (ps : List (List Char)) (r r' : List Char),
      r <:+ r' → declTail ps r → declTail ps r' := by
  intro ps
  induction ps with
  | nil => intro r r' _ _; trivial
  | cons m ps ih =>
    intro r r' hsuf hd
    cases ps with
    | nil => exact List.IsSuffix.trans hd hsuf
    | cons q qs =>
      obtain ⟨a, b, hr, hrest⟩ := hd
      obtain ⟨x, hx⟩ := hsuf
      exact ⟨x ++ a, b, by rw [← hx, hr]; simp, hrest⟩

/-- The non-first phase of the matching loop decides exactly the
declarative tail semantics on the lowered parts. -/
theorem wmGo_eq_declTail :
    ∀ (ps : List (List Char)) (r : List Char),
      wmGo ps false r = true ↔ declTail (ps.map lowerL) r := by
  intro ps
  induction ps with
  | nil =>
    intro r
    simp [wmGo, declTail]
  | cons p ps ih =>
    intro r
    by_cases hp : p = []
    · subst hp
      have hl : lowerL ([] : List Char) = [] := rfl
      cases ps with
      | nil =>
        simp [wmGo, declTail, hl, List.nil_suffix]
      | cons q qs =>
        rw [show wmGo ([] :: q :: qs) false r = wmGo (q :: qs) false r
            from by simp [wmGo]]
        rw [ih r]
        simp only [List.map_cons, hl]
        constructor
        · intro hd
          exact ⟨[], r, by simp, hd⟩
        · rintro ⟨a, b, hr, hd⟩
          refine declTail_mono _ b r ?_ hd
          rw [hr]
          simp
    · cases ps with
      | nil =>
        rw [show wmGo [p] false r = (lowerL p).isSuffixOf r
            from by simp [wmGo, hp]]
        simp only [List.map_cons, List.map_nil]
        rw [List.isSuffixOf_iff_suffix]
        constructor
        · intro h
          exact h
        · intro h
          exact h
      | cons q qs =>
        have hgo : wmGo (p :: q :: qs) false r =
            (match restAfter (lowerL p) r with
             | some r' => wmGo (q :: qs) false r'
             | none => false) := by
          simp [wmGo, hp]
        rw [hgo]
        simp only [List.map_cons]
        constructor
        · intro h
          cases hra : restAfter (lowerL p) r with
          | none => rw [hra] at h; cases h
          | some r' =>
            rw [hra] at h
            obtain ⟨a, ha⟩ := restAfter_eq_some (lowerL p) r r' hra
            exact ⟨a, r', ha, (ih r').mp h⟩
        · rintro ⟨a, b, hr, hd⟩
          obtain ⟨r', hr', hbr⟩ :=
            restAfter_of_split (lowerL p) a b r hr
          rw [hr']
          exact (ih r').mpr (declTail_mono _ b r' hbr hd)

/-- The full matching loop on the split parts decides exactly the
declarative pattern semantics on the lowered parts. -/
theorem wmGo_true_eq_declPat (f : List Char) (ps : List (List Char))
    (t : List Char) :
    wmGo (f :: ps) true t = true ↔ declPat ((f :: ps).map lowerL) t := by
  by_cases hf : f = []
  · subst hf
    have hl : lowerL ([] : List Char) = [] := rfl
    cases ps with
    | nil =>
      simp [wmGo, declPat, hl, List.nil_prefix]
    | cons q qs =>
      rw [show wmGo ([] :: q :: qs) true t = wmGo (q :: qs) false t
          from by simp [wmGo]]
      rw [wmGo_eq_declTail]
      simp only [List.map_cons, hl]
      constructor
      · intro hd
        exact ⟨t, by simp, hd⟩
      · rintro ⟨r, hr, hd⟩
        simp at hr
        rw [hr]
        exact hd
  · cases ps with
    | nil =>
      rw [show wmGo [f] true t =
          (if (lowerL f).isPrefixOf t then wmGo [] false (t.drop (lowerL f).length)
           else false) from by simp [wmGo, hf]]
      simp only [List.map_cons, List.map_nil]
      by_cases hpre : (lowerL f).isPrefixOf t = true
      · rw [if_pos (by simpa using hpre)]
        simp [wmGo, declPat]
        exact List.isPrefixOf_iff_prefix.mp hpre
      · rw [if_neg (by simpa using hpre)]
        simp [declPat]
        intro hc
        exact absurd ( List.isPrefixOf_iff_prefix.mpr hc) (by simpa using hpre)
    | cons q qs =>
      rw [show wmGo (f :: q :: qs) true t =
          (if (lowerL f).isPrefixOf t then
            wmGo (q :: qs) false (t.drop (lowerL f).length)
           else false) from by simp [wmGo, hf]]
      simp only [List.map_cons]
      by_cases hpre : (lowerL f).isPrefixOf t = true
      · rw [if_pos (by simpa using hpre)]
        rw [wmGo_eq_declTail]
        obtain ⟨s, hs⟩ := List.isPrefixOf_iff_prefix.mp hpre
        constructor
        · intro hd
          refine ⟨t.drop (lowerL f).length, ?_, hd⟩
          rw [← hs, List.drop_left]
        · rintro ⟨r, hr, hd⟩
          rw [hr, List.drop_left]
          exact hd
      · rw [if_neg (by simpa using hpre)]
        constructor
        · intro h
          cases h
        · rintro ⟨r, hr, _⟩
          exact absurd ( List.isPrefixOf_iff_prefix.mpr ⟨r, hr.symm⟩)
            (by simpa using hpre)

/-- Substring containment is declarative infix occurrence. -/
theorem strContains_iff_infix (hay needle : List Char) :
    strContains hay needle = true ↔ needle <:+: hay := by
  unfold strContains
  rw [Option.isSome_iff_exists]
  constructor
  · rintro ⟨r, hr⟩
    obtain ⟨a, ha⟩ := restAfter_eq_some needle hay r hr
    exact ⟨a, r, by rw [ha]⟩
  · rintro ⟨s, u, hsu⟩
    obtain ⟨r, hr, _⟩ := restAfter_of_split needle s u hay hsu.symm
    exact ⟨r, hr⟩

/-- The rule-engine wildcard matcher decides the declarative pattern
semantics on the lowered split parts, for every pattern containing a
star. -/
theorem wildcard_match_iff_declPat (pattern text : String)
    (hstar : pattern.toList.contains '*' = true) :
    wildcard_match pattern text = true ↔
      declPat ((pattern.toList.splitOn '*').map lowerL)
        (lowerL text.toList) := by
  unfold wildcard_match
  by_cases hp : pattern = "*"
  · subst hp
    rw [if_pos rfl]
    have hsp : ((("*" : String).toList.splitOn '*').map lowerL) =
        [[], []] := by decide
    rw [hsp]
    simp only [declPat]
    constructor
    · intro _
      exact ⟨lowerL text.toList, by simp, List.nil_suffix⟩
    · intro _
      trivial
  · rw [if_neg hp, if_neg (by simpa using hstar)]
    cases hparts : pattern.toList.splitOn '*' with
    | nil =>
      simp [declPat]
    | cons f ps =>
      show (if (f :: ps).isEmpty = true then true
            else wmGo (f :: ps) true (lowerL text.toList)) = true ↔ _
      rw [show (f :: ps).isEmpty = false from rfl]
      simp only [Bool.false_eq_true, if_false]
      exact wmGo_true_eq_declPat f ps (lowerL text.toList)

/-- C3 counterexample: for pattern `ab*b` and path `ab` the claim's
conditions as stated hold — the first part `ab` is a prefix of the path
and the last part `b` is a suffix of the (whole) path — yet the matcher
rejects, because the code checks the last part against the remainder
after the prefix match, which here is empty. -/
theorem c3_counterexample :
    pattern_matches "ab" "ab*b" = false ∧
    ("ab*b" : String).toList.contains '*' = true ∧
    claimPat ((("ab*b" : String).toList.splitOn '*').map lowerL)
      (lowerL ("ab" : String).toList) := by
  refine ⟨by decide, by decide, ?_⟩
  show claimPat [['a', 'b'], ['b']] ['a', 'b']
  exact ⟨ List.prefix_refl _, ⟨['a'], rfl⟩, trivial⟩

/-- C3 amended: for every path and pattern, a pattern with no `*`
matches iff it is a case-insensitive substring of the path; a pattern
containing `*` matches iff, splitting on `*` into literal parts, the
first part is a prefix of the path and the remaining parts occur
left-to-right in the rest of the path with the final part a suffix of
the segment remaining after the prefix and middle matches (empty parts
vacuous, all case-insensitively); the pattern `*` matches everything. -/
theorem c3_amended_pattern_semantics :
    ∀ (path pattern : String),
      (pattern.toList.contains '*' = true →
        (pattern_matches path pattern = true ↔
          declPat ((pattern.toList.splitOn '*').map lowerL)
            (lowerL path.toList))) ∧
      (pattern.toList.contains '*' = false →
        (pattern_matches path pattern = true ↔
          (lowerL pattern.toList) <:+: (lowerL path.toList))) := by
  intro path pattern
  constructor
  · intro hstar
    unfold pattern_matches
    rw [if_pos (by simpa using hstar)]
    exact wildcard_match_iff_declPat pattern path hstar
  · intro hns
    have hns' : '*' ∉ pattern.toList := by simpa using hns
    unfold pattern_matches
    rw [if_neg (by simpa using hns')]
    exact strContains_iff_infix _ _

/-- Witness for the amended C3 at a concrete wildcard pattern and
path. -/
theorem c3_amended_witness :
    ("*/Downloads/*" : String).toList.contains '*' = true ∧
    declPat ((("*/Downloads/*" : String).toList.splitOn '*').map lowerL)
      (lowerL ("/home/u/Downloads/x.zip" : String).toList) :=
  ⟨by decide,
    ((c3_amended_pattern_semantics "/home/u/Downloads/x.zip"
      "*/Downloads/*").1 (by decide)).mp (by decide)⟩

end Rules

/-- C2 counterexample: the pattern `tmp` contains no `*`, and the scanner
excludes the path `a/tmp/x` under it even though the pattern does not
equal the path — exclusion for starless patterns is substring
containment, not exact equality. -/
theorem c2_counterexample :
    ("tmp" : String).toList.contains '*' = false ∧
    Scanner.should_exclude_file "a/tmp/x" ["tmp"] = true ∧
    ("tmp" : String) ≠ "a/tmp/x" := by
  refine ⟨by decide, by decide, by decide⟩

/-- C2 amended: a configured exclude pattern with no `*` excludes exactly
the paths that contain it as a case-sensitive substring; exact string
equality holds only inside the `wildcard_match` helper itself, which
`should_exclude_file` never reaches for starless patterns. -/
theorem c2_amended_exclusion_is_substring :
    ∀ (p t : String), p.toList.contains '*' = false →
      (Scanner.should_exclude_file t [p] = true ↔
        strContains t.toList p.toList = true) ∧
      (Scanner.wildcard_match p t = true ↔ p = t) := by
  intro p t h
  have h' : '*' ∉ p.toList := by simpa using h
  constructor
  · unfold Scanner.should_exclude_file
    simp [h', Scanner.should_exclude_file]
    intro hin
    exact absurd hin h'
  · by_cases hp : p = "*"
    · subst hp
      exact absurd (by decide : '*' ∈ ("*" : String).toList) h'
    · unfold Scanner.wildcard_match
      simp [hp, h']
      intro hin
      exact absurd hin h'

/-- Witness for the amended C2 at a concrete pattern and path. -/
theorem c2_amended_witness :
    ("tmp" : String).toList.contains '*' = false ∧
    Scanner.should_exclude_file "a/tmp/x" ["tmp"] = true :=
  ⟨by decide,
    (c2_amended_exclusion_is_substring "tmp" "a/tmp/x" (by decide)).1.mpr
      (by decide)⟩

unseal List.merge List.mergeSort in
/-- C6: the claim says `get_oldest_files` returns the records with the
smallest `last_access_secs` (greatest staleness), most stale first.  The
code sorts by descending timestamp, so on a pair of records it returns
the most recently accessed one: with `recStale` accessed at second 100
and `recFresh` at second 200, the top-1 query returns `recFresh`, the
fresher record, contradicting the function's own name and the spec's
staleness definition. -/
theorem c6_get_oldest_files_returns_freshest :
    Scanner.get_oldest_files [recStale, recFresh] 1 = [recFresh] ∧
    recStale.last_access_secs < recFresh.last_access_secs ∧
    Scanner.get_oldest_files [recStale, recFresh] 1 ≠ [recStale] := by
  refine ⟨by decide, by decide, by decide⟩

namespace Actions

/-- A successful lookup implies existence. -/
theorem pathExists_of_lookup (fs : FS) (p : String) (b : Bool)
    (h : fs.lookup p = some b) : pathExists fs p = true := by
  induction fs with
  | nil => simp [List.lookup] at h
  | cons e t ih =>
    rw [List.lookup] at h
    by_cases he : e.1 = p
    · simp [pathExists, he]
    · have hne : (p == e.1) = false :=
        beq_false_of_ne (fun hpe => he hpe.symm)
      rw [hne] at h
      have h2 : pathExists t p = true := ih h
      simp only [pathExists, List.any_cons] at h2 ⊢
      rw [h2]
      simp

/-- After removal the path no longer exists. -/
theorem pathExists_removeAll_self (fs : FS) (p : String) :
    pathExists (removeAll fs p) p = false := by
  simp [pathExists, removeAll, List.any_eq_true, List.mem_filter]

/-- Removal of one path leaves every other path's existence unchanged. -/
theorem pathExists_removeAll_ne (fs : FS) (p q : String) (h : q ≠ p) :
    pathExists (removeAll fs p) q = pathExists fs q := by
  induction fs with
  | nil => rfl
  | cons e t ih =>
    by_cases he : e.1 = p
    · have hpq : ¬ p = q := fun hpq => h hpq.symm
      simp [removeAll, pathExists, List.filter_cons, he, hpq] at ih ⊢
      exact ih
    · simp [removeAll, pathExists, List.filter_cons, he] at ih ⊢
      by_cases hq : e.1 = q
      · simp [hq]
      · simp [hq]
        exact ih

/-- C5: for every filesystem and path, `delete_file` returns
`FileNotFound` on a missing path, returns `PermissionDenied` on a
read-only file leaving the filesystem (and hence the file) untouched,
and otherwise removes exactly the target file and returns success. -/
theorem c5_delete_file_spec :
    ∀ (fs : FS) (path : String),
      (pathExists fs path = false →
        delete_file fs path =
          (Except.error FileActionError.FileNotFound, fs)) ∧
      (fs.lookup path = some true →
        delete_file fs path =
          (Except.error FileActionError.PermissionDenied, fs) ∧
        pathExists (delete_file fs path).2 path = true) ∧
      (fs.lookup path = some false →
        (delete_file fs path).1 = Except.ok () ∧
        pathExists (delete_file fs path).2 path = false ∧
        ∀ q, q ≠ path →
          pathExists (delete_file fs path).2 q = pathExists fs q) := by
  intro fs path
  refine ⟨?_, ?_, ?_⟩
  · intro h
    unfold delete_file
    simp [h]
  · intro h
    have hex := pathExists_of_lookup fs path true h
    unfold delete_file
    simp [hex, h]
  · intro h
    have hex := pathExists_of_lookup fs path false h
    unfold delete_file
    simp [hex, h]
    exact ⟨pathExists_removeAll_self fs path,
      fun q hq => pathExists_removeAll_ne fs path q hq⟩

/-- Witness for C5: deleting a concrete read-only file fails with
`PermissionDenied` and the file survives. -/
theorem c5_delete_file_witness :
    ([("a/ro.txt", true)] : FS).lookup "a/ro.txt" = some true ∧
    delete_file [("a/ro.txt", true)] "a/ro.txt" =
      (Except.error FileActionError.PermissionDenied,
        [("a/ro.txt", true)]) :=
  ⟨by decide,
    ((c5_delete_file_spec [("a/ro.txt", true)] "a/ro.txt").2.1
      (by decide)).1⟩

/-- C7: the io-error translation is exhaustive over the five kinds and
maps each recognized signal to its kind: permission errors to
`PermissionDenied`, missing-file errors to `FileNotFound`, device-full
(raw code 28, ENOSPC) to `InsufficientSpace`, resource-busy (raw code
16, EBUSY) to `FileInUse`, and every error not matching a known code to
`Other` carrying the original message. -/
theorem c7_error_taxonomy :
    ∀ (e : IoError),
      (from_io_error e = FileActionError.PermissionDenied ↔
        e.kind = IOErrorKind.permissionDenied) ∧
      (from_io_error e = FileActionError.FileNotFound ↔
        e.kind = IOErrorKind.notFound) ∧
      (from_io_error e = FileActionError.InsufficientSpace ↔
        (e.kind = IOErrorKind.other ∧ e.raw_os_error = some 28)) ∧
      (from_io_error e = FileActionError.FileInUse ↔
        (e.kind = IOErrorKind.other ∧ e.raw_os_error = some 16)) ∧
      ((e.kind ≠ IOErrorKind.permissionDenied ∧
        e.kind ≠ IOErrorKind.notFound ∧
        (e.kind = IOErrorKind.other →
          e.raw_os_error ≠ some 28 ∧ e.raw_os_error ≠ some 16)) →
        from_io_error e = FileActionError.Other e.msg) ∧
      (from_io_error e = FileActionError.PermissionDenied ∨
        from_io_error e = FileActionError.FileNotFound ∨
        from_io_error e = FileActionError.InsufficientSpace ∨
        from_io_error e = FileActionError.FileInUse ∨
        ∃ m, from_io_error e = FileActionError.Other m) := by
  intro e
  obtain ⟨k, r, m⟩ := e
  cases k <;>
    rcases r with _ | c <;>
      simp [from_io_error] <;>
        rcases eq_or_ne c 28 with h28 | h28 <;>
          rcases eq_or_ne c 16 with h16 | h16 <;>
            simp [h28, h16]

/-- Witness for C7: a concrete unrecognized OS error collapses to
`Other` with its message preserved. -/
theorem c7_error_taxonomy_witness :
    from_io_error
      { kind := IOErrorKind.other
        raw_os_error := some 5
        msg := "Input output error" } =
      FileActionError.Other "Input output error" :=
  (c7_error_taxonomy
    { kind := IOErrorKind.other
      raw_os_error := some 5
      msg := "Input output error" }).2.2.2.2.1
    ⟨by decide, by decide, fun _ => ⟨by decide, by decide⟩⟩

/-- The collision loop returns the first free candidate: starting from
candidate `i` with the counter at `i + 1`, if every candidate strictly
before `k` is taken and candidate `k` is free, the loop stops exactly at
candidate `k`. -/
theorem findFreeGo_least (fs : FS) (dir filename : String) :
    ∀ (fuel i k : Nat), i ≤ k → k - i ≤ fuel →
      (∀ j, i ≤ j → j < k →
        pathExists fs (archiveCandidate dir filename j) = true) →
      pathExists fs (archiveCandidate dir filename k) = false →
      findFreeGo fs dir filename (i + 1) fuel
        (archiveCandidate dir filename i) =
        archiveCandidate dir filename k := by
  intro fuel
  induction fuel with
  | zero =>
    intro i k hik hk _ _
    have hki : k = i := by omega
    subst hki
    rfl
  | succ fuel ih =>
    intro i k hik hk hall hfree
    rcases eq_or_lt_of_le hik with heq | hlt
    · subst heq
      simp [findFreeGo, hfree]
    · have hcur : pathExists fs (archiveCandidate dir filename i) = true :=
        hall i le_rfl hlt
      simp only [findFreeGo, hcur, if_true]
      exact ih (i + 1) k hlt (by omega)
        (fun j hj1 hj2 => hall j (by omega) hj2) hfree

/-- C8: the archive destination search returns the first free candidate
in the sequence `dir/filename`, `dir/stem_1.ext`, `dir/stem_2.ext`, …;
the `_<n>` suffix sits between stem and extension; archiving two
same-named files into a directory already containing `report.pdf`
produces `report_1.pdf` then `report_2.pdf` while removing the
originals; and the copy happens before the delete, as a read-only
original shows: its deletion fails with `PermissionDenied`, yet the
archived copy is already in place and the original survives. -/
theorem c8_archive_collision_naming :
    (∀ (fs : FS) (dir filename : String) (k : Nat),
      k ≤ fs.length + 1 →
      (∀ j, j < k →
        pathExists fs (archiveCandidate dir filename j) = true) →
      pathExists fs (archiveCandidate dir filename k) = false →
      findFreePath fs dir filename = archiveCandidate dir filename k) ∧
    archiveCandidate "h/.trashdoctor/archive" "report.pdf" 1 =
      "h/.trashdoctor/archive/report_1.pdf" ∧
    archiveCandidate "h/.trashdoctor/archive" "report.pdf" 2 =
      "h/.trashdoctor/archive/report_2.pdf" ∧
    (archive_file arcFS "h" "s1/report.pdf").1 = Except.ok () ∧
    pathExists (archive_file arcFS "h" "s1/report.pdf").2
      "h/.trashdoctor/archive/report_1.pdf" = true ∧
    pathExists (archive_file arcFS "h" "s1/report.pdf").2
      "s1/report.pdf" = false ∧
    (archive_file (archive_file arcFS "h" "s1/report.pdf").2 "h"
      "s2/report.pdf").1 = Except.ok () ∧
    pathExists (archive_file (archive_file arcFS "h" "s1/report.pdf").2
      "h" "s2/report.pdf").2
      "h/.trashdoctor/archive/report_2.pdf" = true ∧
    (archive_file arcRO "h" "s/report.pdf").1 =
      Except.error FileActionError.PermissionDenied ∧
    pathExists (archive_file arcRO "h" "s/report.pdf").2
      "h/.trashdoctor/archive/report.pdf" = true ∧
    pathExists (archive_file arcRO "h" "s/report.pdf").2
      "s/report.pdf" = true := by
  refine ⟨?_, by decide, by decide, by decide, by decide, by decide,
    by decide, by decide, by decide, by decide, by decide⟩
  intro fs dir filename k hk hall hfree
  exact findFreeGo_least fs dir filename (fs.length + 1) 0 k
    (Nat.zero_le k) (by omega) (fun j _ hj => hall j hj) hfree

/-- Witness for C8: on the concrete scenario filesystem the destination
search skips the taken `report.pdf` and lands on `report_1.pdf`. -/
theorem c8_archive_witness :
    findFreePath arcFS "h/.trashdoctor/archive" "report.pdf" =
      archiveCandidate "h/.trashdoctor/archive" "report.pdf" 1 :=
  c8_archive_collision_naming.1 arcFS "h/.trashdoctor/archive"
    "report.pdf" 1 (by decide)
    (by
      intro j hj
      interval_cases j
      decide)
    (by decide)

/-- One unfolding step of the division loop. -/
theorem formatLoop_succ (num den idx fuel : Nat) :
    formatLoop num den idx (fuel + 1) =
      if 1024 * den ≤ num ∧ idx < 4 then
        formatLoop num (den * 1024) (idx + 1) fuel
      else (num, den, idx) := rfl

/-- The division loop lands in the tier determined by explicit range
tests. -/
theorem formatLoop_spec (n : Nat) :
    formatLoop n 1 0 4 =
      if n < 1024 then (n, 1, 0)
      else if n < 1024 * 1024 then (n, 1024, 1)
      else if n < 1024 * 1024 * 1024 then (n, 1024 * 1024, 2)
      else if n < 1024 * 1024 * 1024 * 1024 then
        (n, 1024 * 1024 * 1024, 3)
      else (n, 1024 * 1024 * 1024 * 1024, 4) := by
  by_cases h0 : n < 1024
  · rw [if_pos h0, show (4 : Nat) = 3 + 1 from rfl, formatLoop_succ,
      if_neg (by omega)]
  · rw [if_neg h0]
    by_cases h1 : n < 1024 * 1024
    · rw [if_pos h1, show (4 : Nat) = 3 + 1 from rfl, formatLoop_succ,
        if_pos (by omega), show (3 : Nat) = 2 + 1 from rfl,
        formatLoop_succ, if_neg (by omega)]
    · rw [if_neg h1]
      by_cases h2 : n < 1024 * 1024 * 1024
      · rw [if_pos h2, show (4 : Nat) = 3 + 1 from rfl, formatLoop_succ,
          if_pos (by omega), show (3 : Nat) = 2 + 1 from rfl,
          formatLoop_succ, if_pos (by omega),
          show (2 : Nat) = 1 + 1 from rfl, formatLoop_succ,
          if_neg (by omega)]
      · rw [if_neg h2]
        by_cases h3 : n < 1024 * 1024 * 1024 * 1024
        · rw [if_pos h3, show (4 : Nat) = 3 + 1 from rfl, formatLoop_succ,
            if_pos (by omega), show (3 : Nat) = 2 + 1 from rfl,
            formatLoop_succ, if_pos (by omega),
            show (2 : Nat) = 1 + 1 from rfl, formatLoop_succ,
            if_pos (by omega), show (1 : Nat) = 0 + 1 from rfl,
            formatLoop_succ, if_neg (by omega)]
        · rw [if_neg h3, show (4 : Nat) = 3 + 1 from rfl, formatLoop_succ,
            if_pos (by omega), show (3 : Nat) = 2 + 1 from rfl,
            formatLoop_succ, if_pos (by omega),
            show (2 : Nat) = 1 + 1 from rfl, formatLoop_succ,
            if_pos (by omega), show (1 : Nat) = 0 + 1 from rfl,
            formatLoop_succ, if_pos (by omega)]
          norm_num [formatLoop]

/-- C9: `format_file_size` renders every byte count with binary
1024-based units B/KB/MB/GB/TB, no decimals in the B tier and exactly
two decimals in the higher tiers — it coincides with the spec-side
range-test formatter — and produces the four anchor values of the
specification. -/
theorem c9_format_file_size :
    (∀ n : Nat, format_file_size n = formatSpec n) ∧
    format_file_size 512 = "512 B" ∧
    format_file_size 1024 = "1.00 KB" ∧
    format_file_size 1048576 = "1.00 MB" ∧
    format_file_size 1073741824 = "1.00 GB" := by
  have hgen : ∀ n : Nat, format_file_size n = formatSpec n := by
    intro n
    unfold format_file_size formatSpec
    rw [formatLoop_spec]
    by_cases h0 : n < 1024
    · simp [h0]
    · by_cases h1 : n < 1024 * 1024
      · simp [h0, h1, UNITS]
        rw [String.append_assoc]
        congr 1
      · by_cases h2 : n < 1024 * 1024 * 1024
        · simp [h0, h1, h2, UNITS]
          rw [String.append_assoc]
          congr 1
        · by_cases h3 : n < 1024 * 1024 * 1024 * 1024
          · simp [h0, h1, h2, h3, UNITS]
            rw [String.append_assoc]
            congr 1
          · simp [h0, h1, h2, h3, UNITS]
            rw [String.append_assoc]
            congr 1
  refine ⟨hgen, ?_, ?_, ?_, ?_⟩ <;>
    rw [hgen] <;> decide

end Actions

end TrashDoctor
